import Mathlib

/-!
Verification of `fgspectra/power.py`.

The module provides:
* `PowerSpectrumFromFile`: a dense table built from a two-column file
  (integer multipole, value), evaluated as `_cl[..., ell] / _cl[..., ell_0]`;
* `PowerLaw`: `(ell / ell_0) ** alpha` with `alpha[..., np.newaxis]`;
* `PowerSpectraAndCorrelation`: combines `N` autospectra and `N (N - 1) / 2`
  correlation coefficients into a symmetric component-by-component tensor.

Arrays over the trailing multipole axis are modelled as functions `Fin L → ℝ`
(elementwise product is `Pi` multiplication, matching numpy broadcasting of
equal-shape arrays).  Shape-level behaviour of the combiner is modelled
separately by a computable shape calculus mirroring numpy broadcasting rules.
-/

namespace Fgspectra

/-! ### PowerSpectrumFromFile: table construction (`__init__`) -/

/-- Largest multipole appearing in the samples of a two-column file;
models `ell.max()` in `PowerSpectrumFromFile.__init__`. -/
def maxEll (samples : List (ℕ × ℝ)) : ℕ :=
  (samples.map Prod.fst).foldr max 0

/-- Value stored at multipole `m` after the fancy assignment
`self._cl[ell] = spec`: the last sample with multipole `m` wins, positions
never assigned keep the zero padding. -/
def tableVal (samples : List (ℕ × ℝ)) (m : ℕ) : ℝ :=
  match (samples.filter (fun s => s.1 = m)).getLast? with
  | some s => s.2
  | none => 0

/-- Dense table built by `PowerSpectrumFromFile.__init__` from a single file:
length `ell.max() + 1`, zero-filled at missing multipoles. -/
def buildTable (samples : List (ℕ × ℝ)) : List ℝ :=
  (List.range (maxEll samples + 1)).map (tableVal samples)

/-! ### PowerSpectrumFromFile: evaluation (`__call__`) -/

/-- Numpy integer indexing along the trailing axis: non-negative indices are
plain positions, indices in `[-len, -1]` wrap around from the end, anything
else raises (`none`). -/
def npIndex (t : List ℝ) (i : ℤ) : Option ℝ :=
  if 0 ≤ i ∧ i < (t.length : ℤ) then some (t.getD i.toNat 0)
  else if -(t.length : ℤ) ≤ i ∧ i < 0 then some (t.getD (t.length - (-i).toNat) 0)
  else none

/-- Model of `PowerSpectrumFromFile.__call__` for a scalar `ell`:
`self._cl[..., ell] / self._cl[..., ell_0]`. -/
noncomputable def psCall (t : List ℝ) (ell ell0 : ℤ) : Option ℝ :=
  match npIndex t ell, npIndex t ell0 with
  | some a, some b => some (a / b)
  | _, _ => none

/-- Model of `PowerSpectrumFromFile.__call__` for an array `ell`:
numpy fancy indexing raises if any index is out of range, otherwise maps. -/
noncomputable def psCallArr (t : List ℝ) (ells : List ℤ) (ell0 : ℤ) : Option (List ℝ) :=
  match ells.mapM (npIndex t), npIndex t ell0 with
  | some xs, some b => some (xs.map (fun a => a / b))
  | _, _ => none

/-! ### PowerLaw (`__call__`) -/

/-- Model of `PowerLaw.__call__` with a 1-D `alpha` array:
`alpha = np.array(alpha)[..., np.newaxis]; return (ell / ell_0) ** alpha`.
Row `a`, column `l` holds `(ell[l] / ell_0) ^ alpha[a]` (real power). -/
noncomputable def powerLawCall (ell : List ℝ) (alpha : List ℝ) (ell0 : ℝ) :
    List (List ℝ) :=
  alpha.map (fun a => ell.map (fun x => (x / ell0) ^ a))

/-! ### PowerSpectraAndCorrelation: the fill loops (`__call__`) -/

/-- The sequence of index pairs `(i, j)` visited by the nested loops
`for k_off_diag in range(1, n_comp): for el_off_diag in range(n_comp - k_off_diag)`
with `i = el_off_diag`, `j = el_off_diag + k_off_diag`. -/
def offDiagPairs (N : ℕ) : List (ℕ × ℕ) :=
  (List.range' 1 (N - 1)).flatMap
    (fun k => (List.range (N - k)).map (fun el => (el, el + k)))

/-- Write a single cell of the component-by-component matrix,
modelling `res[..., i, j, :] = v`. -/
def write2 {α : Type} (r : ℕ → ℕ → α) (i j : ℕ) (v : α) : ℕ → ℕ → α :=
  fun a b => if a = i ∧ b = j then v else r a b

/-- State of the fill loops: the partially written tensor (one optional
multipole array per component pair; `none` models still-uninitialised
`np.empty` cells) and the counter `i_corr`. -/
structure FillState (L : ℕ) where
  res : ℕ → ℕ → Option (Fin L → ℝ)
  icorr : ℕ

/-- One iteration of the off-diagonal loop body:
`res[..., i, j, :] = sqrt_cls[i] * sqrt_cls[j] * corrs[i_corr]`,
`res[..., j, i, :] = res[..., i, j, :]`, `i_corr += 1`. -/
def fillStep {L : ℕ} (sc cs : List (Fin L → ℝ)) (s : FillState L) (p : ℕ × ℕ) :
    FillState L :=
  let v : Fin L → ℝ := sc.getD p.1 0 * sc.getD p.2 0 * cs.getD s.icorr 0
  let r1 := write2 s.res p.1 p.2 (some v)
  let r2 := write2 r1 p.2 p.1 (r1 p.1 p.2)
  ⟨r2, s.icorr + 1⟩

/-- The diagonal loop `for i in range(self.n_comp): res[..., i, i, :] = cls[i]`
run on the fresh (`np.empty`) tensor. -/
def diagFill {L : ℕ} (cls : List (Fin L → ℝ)) (N : ℕ) :
    ℕ → ℕ → Option (Fin L → ℝ) :=
  (List.range N).foldl (fun r i => write2 r i i (some (cls.getD i 0)))
    (fun _ _ => none)

/-- The autospectra: `cls = spectra[:self.n_comp]`. -/
def clsOf {L : ℕ} (N : ℕ) (spectra : List (Fin L → ℝ)) : List (Fin L → ℝ) :=
  spectra.take N

/-- The correlation coefficients: `corrs = spectra[self.n_comp:]`. -/
def corrsOf {L : ℕ} (N : ℕ) (spectra : List (Fin L → ℝ)) : List (Fin L → ℝ) :=
  spectra.drop N

/-- The intermediate list `sqrt_cls = [np.sqrt(cl) for cl in cls]`. -/
noncomputable def sqrtClsOf {L : ℕ} (N : ℕ) (spectra : List (Fin L → ℝ)) :
    List (Fin L → ℝ) :=
  (clsOf N spectra).map (fun c => fun l => Real.sqrt (c l))

/-- Model of `PowerSpectraAndCorrelation.__call__` after the sources have been
evaluated: `spectra` is the list of the `S` evaluated arrays (all of the plain
1-D shape `(L,)`, the case in which the allocation of the source succeeds);
the result records the final tensor and the final value of `i_corr`. -/
noncomputable def combinerCall (N L : ℕ) (spectra : List (Fin L → ℝ)) :
    FillState L :=
  (offDiagPairs N).foldl (fillStep (sqrtClsOf N spectra) (corrsOf N spectra))
    ⟨diagFill (clsOf N spectra) N, 0⟩

/-- A concrete evaluated-source list for `N = 2` (`S = 3`): autospectra `4`
and `9`, correlation coefficient `1/2`, all constant over a one-point
multipole axis. -/
noncomputable def spectra3 : List (Fin 1 → ℝ) :=
  [fun _ => 4, fun _ => 9, fun _ => 1 / 2]

/-- A concrete evaluated-source list for `N = 3` (`S = 6`). -/
noncomputable def spectra6 : List (Fin 1 → ℝ) :=
  [fun _ => 1, fun _ => 4, fun _ => 9,
    fun _ => 1 / 2, fun _ => 1 / 3, fun _ => 1 / 4]

/-! ### PowerSpectraAndCorrelation: shape-level model of `__call__`

Numpy shapes are lists of dimension sizes; broadcasting aligns shapes on the
right, a pair of dimensions is compatible when equal or when one of them is 1.
-/

/-- Broadcast of a pair of aligned dimensions. -/
def bcastDim (a b : ℕ) : Option ℕ :=
  if a = b then some a else if a = 1 then some b else if b = 1 then some a
  else none

/-- Broadcast of two reversed shapes (least-significant dimension first). -/
def bcastRev : List ℕ → List ℕ → Option (List ℕ)
  | [], t => some t
  | a :: s, [] => some (a :: s)
  | a :: s, b :: t =>
    match bcastDim a b, bcastRev s t with
    | some d, some r => some (d :: r)
    | _, _ => none

/-- Broadcast of two numpy shapes. -/
def bcast2 (s t : List ℕ) : Option (List ℕ) :=
  (bcastRev s.reverse t.reverse).map List.reverse

/-- Shape of `np.broadcast(*arrays)` given the argument shapes. -/
def bcastAll : List (List ℕ) → Option (List ℕ)
  | [] => some []
  | s :: rest => rest.foldl (fun acc t => acc.bind (fun u => bcast2 u t)) (some s)

/-- Python slice `t[1:-1]`. -/
def slice1m1 (t : List ℕ) : List ℕ :=
  (t.drop 1).dropLast

/-- Python slice `t[-1:]`. -/
def sliceLast (t : List ℕ) : List ℕ :=
  t.drop (t.length - 1)

/-- The shape of the allocated tensor, exactly as the code computes it:
`cls_shape[1:-1] + (n_comp, n_comp) + cls_shape[-1:]`. -/
def resShapeRaw (N : ℕ) (clsShape : List ℕ) : List ℕ :=
  slice1m1 clsShape ++ [N, N] ++ sliceLast clsShape

/-- Whether numpy can assign an array of shape `src` into a slot of shape
`tgt` (shapes reversed: least-significant dimension first): extra leading
source dimensions must be 1, aligned ones must match or be 1. -/
def canAssignRev : List ℕ → List ℕ → Bool
  | [], _ => true
  | a :: s, [] => decide (a = 1) && canAssignRev s []
  | a :: s, b :: t => (decide (a = b) || decide (a = 1)) && canAssignRev s t

/-- Whether numpy can assign an array of shape `src` into a slot of shape
`tgt`. -/
def canAssign (src tgt : List ℕ) : Bool :=
  canAssignRev src.reverse tgt.reverse

/-- Shape-level model of `PowerSpectraAndCorrelation.__call__`: takes the
shapes of the `S` evaluated sources, returns the shape of the produced tensor,
or `none` when the call raises (incompatible broadcast among the autospectra,
or a cell assignment that does not fit). -/
def combinerCallShape (N : ℕ) (spectraShapes : List (List ℕ)) :
    Option (List ℕ) :=
  let clsShapes := spectraShapes.take N
  let corrShapes := spectraShapes.drop N
  match bcastAll clsShapes with
  | none => none
  | some clsShape =>
    let cellShape := slice1m1 clsShape ++ sliceLast clsShape
    let diagOk := clsShapes.all (fun s => canAssign s cellShape)
    let offOk := (offDiagPairs N).enum.all (fun tp =>
      match (bcast2 (clsShapes.getD tp.2.1 []) (clsShapes.getD tp.2.2 [])).bind
          (fun u => bcast2 u (corrShapes.getD tp.1 [])) with
      | none => false
      | some vShape => canAssign vShape cellShape)
    if diagOk && offOk then some (resShapeRaw N clsShape) else none

/-- Modelled from the spec (for comparison with `combinerCallShape`): the
result shape the specification describes, "(...,N,N,L) where leading ... are
broadcast parameter dimensions common to all inputs". -/
def specResultShape (N : ℕ) (spectraShapes : List (List ℕ)) :
    Option (List ℕ) :=
  (bcastAll (spectraShapes.take N)).map
    (fun s => s.dropLast ++ [N, N] ++ sliceLast s)

/-! ### PowerSpectraAndCorrelation: construction (`__init__`) -/

open Classical in
/-- Model of `np.rint` on exact reals: round to nearest, ties to even. -/
noncomputable def rint (x : ℝ) : ℤ :=
  if x - ⌊x⌋ = 1 / 2 then (if Even ⌊x⌋ then ⌊x⌋ else ⌊x⌋ + 1) else round x

/-- Model of `self.n_comp = np.rint(-1 + np.sqrt(1 + 8 * len(power_spectra))) // 2`
(the float floor-division by 2 is a real floor). -/
noncomputable def nComp (S : ℕ) : ℤ :=
  ⌊((rint (-1 + Real.sqrt (1 + 8 * (S : ℝ))) : ℤ) : ℝ) / 2⌋

/-- The constructor's assertion
`assert (self.n_comp + 1) * self.n_comp // 2 == len(power_spectra)`:
construction succeeds exactly when this holds. -/
def initOk (S : ℕ) : Prop :=
  (nComp S + 1) * nComp S / 2 = (S : ℤ)

/-! ### Lemmas about the tabulated source -/

lemma mem_le_maxEll {samples : List (ℕ × ℝ)} {m : ℕ} {v : ℝ}
    (hm : (m, v) ∈ samples) : m ≤ maxEll samples := by
  induction samples with
  | nil => simp at hm
  | cons a l ih =>
    have hstep : maxEll (a :: l) = max a.1 (maxEll l) := rfl
    rcases List.mem_cons.mp hm with h | h
    · rw [hstep, ← h]
      exact le_max_left _ _
    · exact le_trans (ih h) (by rw [hstep]; exact le_max_right _ _)

lemma filter_keys_single {samples : List (ℕ × ℝ)} {m : ℕ} {v : ℝ}
    (hk : (samples.map Prod.fst).Nodup) (hm : (m, v) ∈ samples) :
    samples.filter (fun s => s.1 = m) = [(m, v)] := by
  induction samples with
  | nil => simp at hm
  | cons a l ih =>
    rw [List.map_cons, List.nodup_cons] at hk
    rcases List.mem_cons.mp hm with h | h
    · subst h
      rw [List.filter_cons_of_pos (by simp)]
      have hnil : l.filter (fun s => s.1 = m) = [] := by
        rw [List.filter_eq_nil_iff]
        intro s hs hsm
        simp only [decide_eq_true_eq] at hsm
        apply hk.1
        have hmem : s.1 ∈ l.map Prod.fst := List.mem_map_of_mem Prod.fst hs
        rwa [hsm] at hmem
      rw [hnil]
    · have ham : a.1 ≠ m := by
        intro he
        apply hk.1
        have hmem : (m, v).1 ∈ l.map Prod.fst := List.mem_map_of_mem Prod.fst h
        rwa [← he] at hmem
      rw [List.filter_cons_of_neg (by simpa using ham)]
      exact ih hk.2 h

lemma tableVal_of_mem {samples : List (ℕ × ℝ)} {m : ℕ} {v : ℝ}
    (hk : (samples.map Prod.fst).Nodup) (hm : (m, v) ∈ samples) :
    tableVal samples m = v := by
  unfold tableVal
  rw [filter_keys_single hk hm]
  rfl

lemma buildTable_length (samples : List (ℕ × ℝ)) :
    (buildTable samples).length = maxEll samples + 1 := by
  simp [buildTable]

lemma buildTable_getD {samples : List (ℕ × ℝ)} {m : ℕ}
    (hm : m < maxEll samples + 1) :
    (buildTable samples).getD m 0 = tableVal samples m := by
  rw [buildTable, List.getD_eq_getElem?_getD, List.getElem?_map,
    List.getElem?_range hm]
  rfl

lemma npIndex_ofNat {t : List ℝ} {m : ℕ} (hm : m < t.length) :
    npIndex t (m : ℤ) = some (t.getD m 0) := by
  unfold npIndex
  rw [if_pos ⟨Int.natCast_nonneg m, by exact_mod_cast hm⟩]
  simp

lemma npIndex_negWrap {t : List ℝ} {i : ℤ} (h1 : -(t.length : ℤ) ≤ i)
    (h2 : i < 0) :
    npIndex t i = some (t.getD ((t.length : ℤ) + i).toNat 0) := by
  unfold npIndex
  rw [if_neg (by omega), if_pos ⟨h1, h2⟩]
  have : t.length - (-i).toNat = ((t.length : ℤ) + i).toNat := by omega
  rw [this]

lemma psCall_eq {t : List ℝ} {ell ell0 : ℤ} {a b : ℝ}
    (ha : npIndex t ell = some a) (hb : npIndex t ell0 = some b) :
    psCall t ell ell0 = some (a / b) := by
  unfold psCall
  rw [ha, hb]

/-! ### Claim theorems: tabulated source -/

/-- C7: a tabulated source built from one file with samples at distinct
multipoles returns, at a sampled `ell` and a sampled `ell_0`, the stored value
at `ell` divided by the stored value at `ell_0`; in particular the file
`[(0,10),(1,20),(2,30)]` queried at `ell=[0,1,2]`, `ell_0=0` yields
`[1.0, 2.0, 3.0]`. -/
theorem fromFile_roundtrip (samples : List (ℕ × ℝ)) (m m0 : ℕ) (v v0 : ℝ)
    (hk : (samples.map Prod.fst).Nodup) (hm : (m, v) ∈ samples)
    (h0 : (m0, v0) ∈ samples) :
    psCall (buildTable samples) (m : ℤ) (m0 : ℤ) = some (v / v0) ∧
    psCallArr (buildTable [(0, 10), (1, 20), (2, 30)]) [0, 1, 2] 0 =
      some [1, 2, 3] := by
  constructor
  · have hmlt : m < (buildTable samples).length := by
      rw [buildTable_length]
      exact Nat.lt_succ_of_le (mem_le_maxEll hm)
    have h0lt : m0 < (buildTable samples).length := by
      rw [buildTable_length]
      exact Nat.lt_succ_of_le (mem_le_maxEll h0)
    rw [psCall_eq (npIndex_ofNat hmlt) (npIndex_ofNat h0lt),
      buildTable_getD (by rw [← buildTable_length]; exact hmlt),
      buildTable_getD (by rw [← buildTable_length]; exact h0lt),
      tableVal_of_mem hk hm, tableVal_of_mem hk h0]
  · have ht : buildTable [(0, 10), (1, 20), (2, 30)] = [10, 20, 30] := rfl
    rw [ht]
    have h2 : psCallArr [(10 : ℝ), 20, 30] [0, 1, 2] 0 =
        some [10 / 10, 20 / 10, 30 / 10] := rfl
    rw [h2]
    norm_num

/-- Witness for C7 at the file `[(0,10),(1,20),(2,30)]`, `ell = 2`,
`ell_0 = 0`. -/
theorem fromFile_roundtrip_witness :
    (([(0, 10), (1, 20), (2, 30)] : List (ℕ × ℝ)).map Prod.fst).Nodup ∧
      ((2 : ℕ), (30 : ℝ)) ∈ ([(0, 10), (1, 20), (2, 30)] : List (ℕ × ℝ)) ∧
      ((0 : ℕ), (10 : ℝ)) ∈ ([(0, 10), (1, 20), (2, 30)] : List (ℕ × ℝ)) ∧
      (psCall (buildTable [(0, 10), (1, 20), (2, 30)]) ((2 : ℕ) : ℤ)
          ((0 : ℕ) : ℤ) = some ((30 : ℝ) / 10) ∧
        psCallArr (buildTable [(0, 10), (1, 20), (2, 30)]) [0, 1, 2] 0 =
          some [1, 2, 3]) := by
  have hk : (([(0, 10), (1, 20), (2, 30)] : List (ℕ × ℝ)).map
      Prod.fst).Nodup := by
    simp
  have hm : ((2 : ℕ), (30 : ℝ)) ∈
      ([(0, 10), (1, 20), (2, 30)] : List (ℕ × ℝ)) := by
    simp
  have h0 : ((0 : ℕ), (10 : ℝ)) ∈
      ([(0, 10), (1, 20), (2, 30)] : List (ℕ × ℝ)) := by
    simp
  exact ⟨hk, hm, h0, fromFile_roundtrip _ 2 0 30 10 hk hm h0⟩

/-- C8 counterexample: the claim fails at a table whose stored value at the
queried multipole is zero (here the dense zero-filling at multipole 0 of a
file that only samples multipole 1): the code computes `0/0` (a NaN in
floating point, `0` in the real model), not `1.0`. -/
theorem selfNorm_zero_entry :
    psCall (buildTable [(1, 5)]) 0 0 ≠ some 1 := by
  have ht : buildTable [(1, 5)] = [0, 5] := rfl
  have h2 : psCall [(0 : ℝ), 5] 0 0 = some (0 / 0) := rfl
  rw [ht, h2]
  norm_num

/-- C8 (amended): for every table and in-range multipole `m` whose stored
value is nonzero, evaluating with `ell = ell_0 = m` yields exactly `1.0`. -/
theorem selfNorm_one (t : List ℝ) (m : ℕ) (hm : m < t.length)
    (hnz : t.getD m 0 ≠ 0) : psCall t (m : ℤ) (m : ℤ) = some 1 := by
  rw [psCall_eq (npIndex_ofNat hm) (npIndex_ofNat hm), div_self hnz]

/-- Witness for C8 (amended) at the table `[2.0]`, `m = 0`. -/
theorem selfNorm_one_witness :
    0 < ([(2 : ℝ)]).length ∧ ([(2 : ℝ)]).getD 0 0 ≠ 0 ∧
      psCall [(2 : ℝ)] 0 0 = some 1 :=
  ⟨by norm_num, by norm_num [List.getD],
    selfNorm_one [(2 : ℝ)] 0 (by norm_num) (by norm_num [List.getD])⟩

/-- C10: for a table of length `M`, an integer `ell` in `[-M, -1]` does not
raise: the call returns the entry at position `M + ell` (divided by the entry
at `ell_0`), i.e. negative multipoles silently wrap around from the end. -/
theorem negative_ell_wraps (t : List ℝ) (M : ℕ) (hM : t.length = M) (i : ℤ)
    (h1 : -(M : ℤ) ≤ i) (h2 : i ≤ -1) (ell0 : ℕ) (h0 : ell0 < M) :
    psCall t i (ell0 : ℤ) =
      some (t.getD ((M : ℤ) + i).toNat 0 / t.getD ell0 0) := by
  subst hM
  exact psCall_eq (npIndex_negWrap h1 (by omega)) (npIndex_ofNat h0)

/-- Witness for C10 at the table `[10.0, 20.0]`, `ell = -1`, `ell_0 = 0`. -/
theorem negative_ell_wraps_witness :
    ([(10 : ℝ), 20].length = 2) ∧ (-(2 : ℤ) ≤ -1) ∧ ((-1 : ℤ) ≤ -1) ∧
      (0 < 2) ∧
      psCall [(10 : ℝ), 20] (-1) 0 =
        some (([(10 : ℝ), 20]).getD ((2 : ℤ) + -1).toNat 0 /
          ([(10 : ℝ), 20]).getD 0 0) :=
  ⟨rfl, by decide, by decide, by decide,
    negative_ell_wraps [(10 : ℝ), 20] 2 rfl (-1) (by decide) (by decide) 0
      (by decide)⟩

/-! ### Claim theorem: power law -/

/-- C9: the power-law source returns `(ell / ell_0) ^ alpha` with the shape of
`alpha` as leading dimension and `ell` as trailing axis; in particular
`alpha = [1, 2]`, `ell = [1, 10]`, `ell_0 = 10` gives the 2×2 array
`[[0.1, 1.0], [0.01, 1.0]]`. -/
theorem powerLaw_values (ell alpha : List ℝ) (ell0 : ℝ) (a l : ℕ)
    (ha : a < alpha.length) (hl : l < ell.length) :
    (powerLawCall ell alpha ell0).length = alpha.length ∧
    ((powerLawCall ell alpha ell0).getD a []).length = ell.length ∧
    ((powerLawCall ell alpha ell0).getD a []).getD l 0 =
      (ell.getD l 0 / ell0) ^ alpha.getD a 0 ∧
    powerLawCall [1, 10] [1, 2] 10 = [[1 / 10, 1], [1 / 100, 1]] := by
  have hget : (powerLawCall ell alpha ell0).getD a [] =
      ell.map (fun x => (x / ell0) ^ alpha.getD a 0) := by
    rw [powerLawCall, List.getD_eq_getElem?_getD, List.getElem?_map,
      List.getElem?_eq_getElem ha, List.getD_eq_getElem?_getD,
      List.getElem?_eq_getElem ha]
    rfl
  refine ⟨by simp [powerLawCall], by rw [hget]; simp, ?_, ?_⟩
  · rw [hget]
    simp [List.getD_eq_getElem?_getD, List.getElem?_map,
      List.getElem?_eq_getElem, hl]
  · have hu : powerLawCall [1, 10] [1, 2] 10 =
        [[((1 : ℝ) / 10) ^ (1 : ℝ), ((10 : ℝ) / 10) ^ (1 : ℝ)],
          [((1 : ℝ) / 10) ^ (2 : ℝ), ((10 : ℝ) / 10) ^ (2 : ℝ)]] := rfl
    have h1 : ((10 : ℝ) / 10) = 1 := by norm_num
    have h2 : ((2 : ℝ)) = ((2 : ℕ) : ℝ) := by norm_num
    rw [hu, h1, Real.one_rpow, Real.one_rpow, Real.rpow_one, h2,
      Real.rpow_natCast]
    norm_num

/-- Witness for C9: the general statement applied at
`ell = [1, 10]`, `alpha = [1, 2]`, `ell_0 = 10`, `a = 1`, `l = 0`. -/
theorem powerLaw_values_witness :
    1 < ([(1 : ℝ), 2]).length ∧ 0 < ([(1 : ℝ), 10]).length ∧
      ((powerLawCall [1, 10] [1, 2] 10).getD 1 []).getD 0 0 =
        (([(1 : ℝ), 10]).getD 0 0 / 10) ^ (([(1 : ℝ), 2]).getD 1 0) :=
  ⟨by norm_num, by norm_num,
    (powerLaw_values [1, 10] [1, 2] 10 1 0 (by norm_num) (by norm_num)).2.2.1⟩

/-! ### Lemmas about the fill loops -/

lemma fillStep_res_fst {L : ℕ} (sc cs : List (Fin L → ℝ)) (s : FillState L)
    (p : ℕ × ℕ) :
    (fillStep sc cs s p).res p.1 p.2 =
      some (sc.getD p.1 0 * sc.getD p.2 0 * cs.getD s.icorr 0) := by
  simp [fillStep, write2]

lemma fillStep_res_snd {L : ℕ} (sc cs : List (Fin L → ℝ)) (s : FillState L)
    (p : ℕ × ℕ) :
    (fillStep sc cs s p).res p.2 p.1 =
      some (sc.getD p.1 0 * sc.getD p.2 0 * cs.getD s.icorr 0) := by
  simp [fillStep, write2]

lemma fillStep_res_other {L : ℕ} (sc cs : List (Fin L → ℝ)) (s : FillState L)
    (p : ℕ × ℕ) (a b : ℕ) (h1 : ¬(a = p.1 ∧ b = p.2))
    (h2 : ¬(a = p.2 ∧ b = p.1)) :
    (fillStep sc cs s p).res a b = s.res a b := by
  unfold fillStep write2
  dsimp only
  rw [if_neg h2, if_neg h1]

lemma fillStep_icorr {L : ℕ} (sc cs : List (Fin L → ℝ)) (s : FillState L)
    (p : ℕ × ℕ) : (fillStep sc cs s p).icorr = s.icorr + 1 := rfl

lemma foldl_fillStep_icorr {L : ℕ} (sc cs : List (Fin L → ℝ))
    (ps : List (ℕ × ℕ)) (s : FillState L) :
    (ps.foldl (fillStep sc cs) s).icorr = s.icorr + ps.length := by
  induction ps generalizing s with
  | nil => rfl
  | cons p ps ih =>
    rw [List.foldl_cons, ih, fillStep_icorr, List.length_cons]
    omega

lemma foldl_fillStep_other {L : ℕ} (sc cs : List (Fin L → ℝ))
    (ps : List (ℕ × ℕ)) (s : FillState L) (a b : ℕ)
    (h : ∀ p ∈ ps, ¬(a = p.1 ∧ b = p.2) ∧ ¬(a = p.2 ∧ b = p.1)) :
    (ps.foldl (fillStep sc cs) s).res a b = s.res a b := by
  induction ps generalizing s with
  | nil => rfl
  | cons p ps ih =>
    rw [List.foldl_cons, ih _ (fun q hq => h q (List.mem_cons_of_mem _ hq))]
    exact fillStep_res_other sc cs s p a b (h p (List.mem_cons_self _ _)).1
      (h p (List.mem_cons_self _ _)).2

lemma foldl_fillStep_get {L : ℕ} (sc cs : List (Fin L → ℝ))
    (ps : List (ℕ × ℕ)) (s : FillState L) (t i j : ℕ)
    (ht : ps[t]? = some (i, j))
    (hafter : ∀ u q, ps[u]? = some q → t < u →
      ¬(i = q.1 ∧ j = q.2) ∧ ¬(i = q.2 ∧ j = q.1)) :
    (ps.foldl (fillStep sc cs) s).res i j =
      some (sc.getD i 0 * sc.getD j 0 * cs.getD (s.icorr + t) 0) ∧
    (ps.foldl (fillStep sc cs) s).res j i =
      some (sc.getD i 0 * sc.getD j 0 * cs.getD (s.icorr + t) 0) := by
  induction ps generalizing s t with
  | nil => simp at ht
  | cons p ps ih =>
    cases t with
    | zero =>
      obtain rfl : p = (i, j) := by simpa using ht
      rw [List.foldl_cons]
      have hrest : ∀ q ∈ ps, ¬(i = q.1 ∧ j = q.2) ∧ ¬(i = q.2 ∧ j = q.1) := by
        intro q hq
        obtain ⟨u, hu⟩ := List.mem_iff_getElem?.mp hq
        exact hafter (u + 1) q (by simpa using hu) (Nat.succ_pos u)
      constructor
      · rw [foldl_fillStep_other sc cs ps _ i j hrest, fillStep_res_fst]
        simp
      · rw [foldl_fillStep_other sc cs ps _ j i
          (fun q hq => ⟨fun hc => (hrest q hq).2 ⟨hc.2, hc.1⟩,
            fun hc => (hrest q hq).1 ⟨hc.2, hc.1⟩⟩), fillStep_res_snd]
        simp
    | succ u =>
      rw [List.foldl_cons]
      have hres := ih (fillStep sc cs s p) u (by simpa using ht)
        (fun u' q hu' htu' => hafter (u' + 1) q (by simpa using hu')
          (by omega))
      rw [fillStep_icorr] at hres
      have harith : s.icorr + 1 + u = s.icorr + (u + 1) := by omega
      rw [harith] at hres
      exact hres

lemma mem_offDiagPairs {N : ℕ} {p : ℕ × ℕ} :
    p ∈ offDiagPairs N ↔ p.1 < p.2 ∧ p.2 < N := by
  obtain ⟨i, j⟩ := p
  unfold offDiagPairs
  simp only [List.mem_flatMap, List.mem_map, List.mem_range,
    List.mem_range'_1, Prod.mk.injEq]
  constructor
  · rintro ⟨k, ⟨hk1, hk2⟩, el, hel, rfl, rfl⟩
    omega
  · rintro ⟨h1, h2⟩
    exact ⟨j - i, ⟨by omega, by omega⟩, i, by omega, rfl, by omega⟩

lemma nodup_offDiagPairs (N : ℕ) : (offDiagPairs N).Nodup := by
  unfold offDiagPairs
  rw [List.nodup_flatMap]
  constructor
  · intro k _
    exact (List.nodup_range _).map
      (fun a b h => by simpa using congrArg Prod.fst h)
  · have hne : (List.range' 1 (N - 1)).Pairwise (· ≠ ·) :=
      List.nodup_range' 1 (N - 1) 1 (by norm_num)
    refine List.Pairwise.imp ?_ hne
    intro k k' hkk x hx hx'
    simp only [List.mem_map, List.mem_range] at hx hx'
    obtain ⟨el, _, rfl⟩ := hx
    obtain ⟨el', _, he⟩ := hx'
    apply hkk
    have h1 : el' = el := by
      have := congrArg Prod.fst he
      simpa using this
    have h2 := congrArg Prod.snd he
    simp only [h1] at h2
    simpa using h2.symm

lemma sum_range_desc (m : ℕ) :
    ∑ i in Finset.range m, (m - i) = (m + 1) * m / 2 := by
  have h1 : ∑ i in Finset.range m, (m - i)
      = ∑ i in Finset.range m, ((m - 1 - i) + 1) := by
    apply Finset.sum_congr rfl
    intro i hi
    rw [Finset.mem_range] at hi
    omega
  rw [h1, Finset.sum_range_reflect (fun j => j + 1) m, Finset.sum_add_distrib,
    Finset.sum_range_id, Finset.sum_const, Finset.card_range, smul_eq_mul,
    mul_one]
  rcases m with _ | m
  · rfl
  · have e : (m + 1 + 1) * (m + 1) = (m + 1) * m + 2 * (m + 1) := by ring
    rw [e, Nat.add_mul_div_left _ _ (by norm_num : 0 < 2), Nat.succ_sub_one]

lemma length_offDiagPairs (N : ℕ) :
    (offDiagPairs N).length = N * (N - 1) / 2 := by
  unfold offDiagPairs
  rw [List.length_flatMap]
  have h1 : (List.range' 1 (N - 1)).map
      (List.length ∘ fun k => (List.range (N - k)).map (fun el => (el, el + k)))
      = (List.range' 1 (N - 1)).map (fun k => N - k) := by
    apply List.map_congr_left
    intro k _
    simp
  rw [h1, List.range'_eq_map_range, List.map_map]
  have h2 : ((List.range (N - 1)).map ((fun k => N - k) ∘ (1 + ·))).sum =
      ∑ i in Finset.range (N - 1), (N - (1 + i)) := rfl
  rw [h2]
  rcases N with _ | m
  · simp
  · have h3 : ∑ i in Finset.range m, (m + 1 - (1 + i))
        = ∑ i in Finset.range m, (m - i) := by
      apply Finset.sum_congr rfl
      intro i _
      omega
    rw [Nat.succ_sub_one, h3, sum_range_desc]

lemma diagFill_eq {L : ℕ} (cls : List (Fin L → ℝ)) (N : ℕ) (a b : ℕ) :
    diagFill cls N a b =
      if a = b ∧ a < N then some (cls.getD a 0) else none := by
  induction N with
  | zero => simp [diagFill]
  | succ n ih =>
    have hstep : diagFill cls (n + 1) =
        write2 (diagFill cls n) n n (some (cls.getD n 0)) := by
      unfold diagFill
      rw [List.range_succ, List.foldl_append, List.foldl_cons, List.foldl_nil]
    rw [hstep]
    simp only [write2]
    by_cases h : a = n ∧ b = n
    · rw [if_pos h, if_pos ⟨by omega, by omega⟩, h.1]
    · rw [if_neg h, ih]
      by_cases h2 : a = b ∧ a < n
      · rw [if_pos h2, if_pos ⟨h2.1, by omega⟩]
      · rw [if_neg h2, if_neg (by omega)]

lemma getD_take {L : ℕ} (spectra : List (Fin L → ℝ)) (N i : ℕ) (hi : i < N) :
    (spectra.take N).getD i 0 = spectra.getD i 0 := by
  rw [List.getD_eq_getElem?_getD, List.getD_eq_getElem?_getD,
    List.getElem?_take_of_lt hi]

lemma combinerCall_res_diag {N L : ℕ} (spectra : List (Fin L → ℝ)) (i : ℕ)
    (hi : i < N) :
    (combinerCall N L spectra).res i i = some (spectra.getD i 0) := by
  unfold combinerCall
  have hother : ∀ p ∈ offDiagPairs N,
      ¬(i = p.1 ∧ i = p.2) ∧ ¬(i = p.2 ∧ i = p.1) := by
    intro p hp
    have hm := mem_offDiagPairs.mp hp
    constructor
    · rintro ⟨h1, h2⟩
      omega
    · rintro ⟨h1, h2⟩
      omega
  rw [foldl_fillStep_other _ _ _ _ i i hother]
  show diagFill (clsOf N spectra) N i i = _
  rw [diagFill_eq, if_pos ⟨rfl, hi⟩, clsOf, getD_take spectra N i hi]

lemma combinerCall_res_offdiag {N L : ℕ} (spectra : List (Fin L → ℝ))
    (t i j : ℕ) (ht : (offDiagPairs N)[t]? = some (i, j)) :
    (combinerCall N L spectra).res i j =
      some ((sqrtClsOf N spectra).getD i 0 * (sqrtClsOf N spectra).getD j 0 *
        (corrsOf N spectra).getD t 0) ∧
    (combinerCall N L spectra).res j i =
      some ((sqrtClsOf N spectra).getD i 0 * (sqrtClsOf N spectra).getD j 0 *
        (corrsOf N spectra).getD t 0) := by
  have hmem := mem_offDiagPairs.mp (List.getElem?_mem ht)
  have hlt : t < (offDiagPairs N).length := by
    by_contra hge
    push_neg at hge
    rw [List.getElem?_eq_none hge] at ht
    exact Option.noConfusion ht
  unfold combinerCall
  have h := foldl_fillStep_get (sqrtClsOf N spectra) (corrsOf N spectra)
    (offDiagPairs N) ⟨diagFill (clsOf N spectra) N, 0⟩ t i j ht ?_
  · simpa using h
  · intro u q hu htu
    obtain ⟨a, b⟩ := q
    have hq := mem_offDiagPairs.mp (List.getElem?_mem hu)
    constructor
    · rintro ⟨rfl, rfl⟩
      exact absurd (List.getElem?_inj hlt (nodup_offDiagPairs N)
        (ht.trans hu.symm)) (by omega)
    · rintro ⟨rfl, rfl⟩
      simp only at hmem hq
      omega

lemma fillStep_symm {L : ℕ} (sc cs : List (Fin L → ℝ)) (s : FillState L)
    (hs : ∀ a b, s.res a b = s.res b a) (p : ℕ × ℕ) (a b : ℕ) :
    (fillStep sc cs s p).res a b = (fillStep sc cs s p).res b a := by
  obtain ⟨i, j⟩ := p
  by_cases hab1 : a = i ∧ b = j
  · obtain ⟨rfl, rfl⟩ := hab1
    rw [fillStep_res_fst sc cs s (a, b), fillStep_res_snd sc cs s (a, b)]
  · by_cases hab2 : a = j ∧ b = i
    · obtain ⟨rfl, rfl⟩ := hab2
      rw [fillStep_res_snd sc cs s (b, a), fillStep_res_fst sc cs s (b, a)]
    · rw [fillStep_res_other sc cs s (i, j) a b hab1 hab2,
        fillStep_res_other sc cs s (i, j) b a
          (fun hc => hab2 ⟨hc.2, hc.1⟩) (fun hc => hab1 ⟨hc.2, hc.1⟩)]
      exact hs a b

lemma foldl_fillStep_symm {L : ℕ} (sc cs : List (Fin L → ℝ))
    (ps : List (ℕ × ℕ)) (s : FillState L)
    (hs : ∀ a b, s.res a b = s.res b a) (a b : ℕ) :
    (ps.foldl (fillStep sc cs) s).res a b =
      (ps.foldl (fillStep sc cs) s).res b a := by
  induction ps generalizing s with
  | nil => exact hs a b
  | cons p ps ih =>
    rw [List.foldl_cons]
    exact ih _ (fillStep_symm sc cs s hs p)

lemma diagFill_symm {L : ℕ} (cls : List (Fin L → ℝ)) (N a b : ℕ) :
    diagFill cls N a b = diagFill cls N b a := by
  rw [diagFill_eq, diagFill_eq]
  by_cases h : a = b
  · subst h
    rfl
  · rw [if_neg (fun hc => h hc.1), if_neg (fun hc => h hc.1.symm)]

lemma corrs_length {N L : ℕ} (spectra : List (Fin L → ℝ))
    (hlen : spectra.length = N * (N + 1) / 2) :
    (corrsOf N spectra).length = N * (N - 1) / 2 := by
  rw [corrsOf, List.length_drop, hlen]
  rcases N with _ | m
  · rfl
  · simp only [Nat.add_sub_cancel]
    have e : (m + 1) * (m + 1 + 1) = (m + 1) * m + 2 * (m + 1) := by ring
    rw [e, Nat.add_mul_div_left _ _ (by norm_num : 0 < 2)]
    omega

/-! ### Claim theorems: the combiner's fill loops -/

/-- C1: for every valid call of the combiner the produced tensor is symmetric
in its two component axes: `result[..., i, j, :] = result[..., j, i, :]`
for all `i`, `j`. -/
theorem combiner_symmetric (N L : ℕ) (spectra : List (Fin L → ℝ))
    (hlen : spectra.length = N * (N + 1) / 2) (i j : ℕ) :
    (combinerCall N L spectra).res i j = (combinerCall N L spectra).res j i := by
  unfold combinerCall
  exact foldl_fillStep_symm _ _ _ _ (fun a b => diagFill_symm _ N a b) i j

/-- Witness for C1 at `N = 2` with spectra `[4, 9, 1/2]` (constant in `ell`),
cells `(0, 1)` and `(1, 0)`. -/
theorem combiner_symmetric_witness :
    spectra3.length = 2 * (2 + 1) / 2 ∧
      (combinerCall 2 1 spectra3).res 0 1
        = (combinerCall 2 1 spectra3).res 1 0 :=
  ⟨rfl, combiner_symmetric 2 1 spectra3 rfl 0 1⟩

/-- C2: at every valid call, the correlation coefficients are consumed in
diagonal-offset order: the pair visited at position `t` of the loop sequence
receives `sqrt_cls[i] * sqrt_cls[j] * corrs[t]`, written to both `(i, j)` and
`(j, i)`; for `N = 3` the visiting order is `(0,1), (1,2), (0,2)`. -/
theorem corr_ordering (N L : ℕ) (spectra : List (Fin L → ℝ))
    (hlen : spectra.length = N * (N + 1) / 2) (t i j : ℕ)
    (ht : (offDiagPairs N)[t]? = some (i, j)) :
    ((combinerCall N L spectra).res i j =
        some ((sqrtClsOf N spectra).getD i 0 * (sqrtClsOf N spectra).getD j 0 *
          (corrsOf N spectra).getD t 0) ∧
      (combinerCall N L spectra).res j i =
        (combinerCall N L spectra).res i j) ∧
    offDiagPairs 3 = [(0, 1), (1, 2), (0, 2)] := by
  have h := combinerCall_res_offdiag spectra t i j ht
  exact ⟨⟨h.1, h.2.trans h.1.symm⟩, by decide⟩

/-- Witness for C2 at `N = 3` with six constant spectra, third correlation
source (`t = 2`) landing at the pair `(0, 2)`. -/
theorem corr_ordering_witness :
    spectra6.length = 3 * (3 + 1) / 2 ∧
      (offDiagPairs 3)[2]? = some (0, 2) ∧
      (((combinerCall 3 1 spectra6).res 0 2 =
          some ((sqrtClsOf 3 spectra6).getD 0 0 *
            (sqrtClsOf 3 spectra6).getD 2 0 *
            (corrsOf 3 spectra6).getD 2 0) ∧
        (combinerCall 3 1 spectra6).res 2 0 =
          (combinerCall 3 1 spectra6).res 0 2) ∧
      offDiagPairs 3 = [(0, 1), (1, 2), (0, 2)]) :=
  ⟨rfl, rfl, corr_ordering 3 1 spectra6 rfl 2 0 2 rfl⟩

/-- C3: at every valid call, each diagonal entry `result[..., i, i, :]`
equals the `i`-th autospectrum evaluation exactly. -/
theorem diag_exact (N L : ℕ) (spectra : List (Fin L → ℝ))
    (hlen : spectra.length = N * (N + 1) / 2) (i : ℕ) (hi : i < N) :
    (combinerCall N L spectra).res i i = some (spectra.getD i 0) :=
  combinerCall_res_diag spectra i hi

/-- Witness for C3 at `N = 2`, `i = 0`. -/
theorem diag_exact_witness :
    spectra3.length = 2 * (2 + 1) / 2 ∧ 0 < 2 ∧
      (combinerCall 2 1 spectra3).res 0 0 = some (spectra3.getD 0 0) :=
  ⟨rfl, by decide, diag_exact 2 1 spectra3 rfl 0 (by decide)⟩

/-- C6: at every valid call (`S = N (N + 1) / 2` sources), the fill loops
consume exactly `S - N = N (N - 1) / 2` correlation arrays — the final
`i_corr` equals `len(corrs)`, so the assertion holds — and every cell of the
`N × N` tensor has been written. -/
theorem corr_consumption (N L : ℕ) (spectra : List (Fin L → ℝ))
    (hlen : spectra.length = N * (N + 1) / 2) :
    (combinerCall N L spectra).icorr = (corrsOf N spectra).length ∧
    ∀ i j, i < N → j < N →
      ((combinerCall N L spectra).res i j).isSome = true := by
  constructor
  · unfold combinerCall
    rw [foldl_fillStep_icorr, length_offDiagPairs, corrs_length spectra hlen]
    simp
  · intro i j hi hj
    rcases Nat.lt_trichotomy i j with h | h | h
    · obtain ⟨t, ht⟩ := List.mem_iff_getElem?.mp
        ((mem_offDiagPairs (p := (i, j))).mpr ⟨h, hj⟩)
      rw [(combinerCall_res_offdiag spectra t i j ht).1]
      rfl
    · subst h
      rw [combinerCall_res_diag spectra i hi]
      rfl
    · obtain ⟨t, ht⟩ := List.mem_iff_getElem?.mp
        ((mem_offDiagPairs (p := (j, i))).mpr ⟨h, hi⟩)
      rw [(combinerCall_res_offdiag spectra t j i ht).2]
      rfl

/-- Witness for C6 at `N = 2` with three constant spectra. -/
theorem corr_consumption_witness :
    spectra3.length = 2 * (2 + 1) / 2 ∧
      ((combinerCall 2 1 spectra3).icorr = (corrsOf 2 spectra3).length ∧
        ∀ i j, i < 2 → j < 2 →
          ((combinerCall 2 1 spectra3).res i j).isSome = true) :=
  ⟨rfl, corr_consumption 2 1 spectra3 rfl⟩

/-! ### Claim theorem: shapes (`cls_shape[1:-1]` drops the leading axis) -/

/-- C4 (evaluation at the failing input): with `N = 1` and a single
autospectrum of shape `(2, 3)` the code allocates shape
`cls_shape[1:-1] + (N, N) + cls_shape[-1:] = (1, 1, 3)` — dropping the
leading broadcast dimension — and the diagonal assignment of the `(2, 3)`
array into the `(3,)`-shaped cell then fails, so no tensor of the claimed
shape `(2, 1, 1, 3)` is produced. -/
theorem shape_drops_leading_dim :
    resShapeRaw 1 [2, 3] = [1, 1, 3] ∧
    combinerCallShape 1 [[2, 3]] = none ∧
    specResultShape 1 [[2, 3]] = some [2, 1, 1, 3] :=
  ⟨rfl, rfl, rfl⟩

/-! ### Lemmas about the constructor -/

lemma rint_intCast (z : ℤ) : rint ((z : ℤ) : ℝ) = z := by
  unfold rint
  rw [Int.floor_intCast]
  rw [if_neg (by norm_num), round_intCast]

lemma rint_nonneg {x : ℝ} (hx : 0 ≤ x) : 0 ≤ rint x := by
  have hf : 0 ≤ ⌊x⌋ := Int.floor_nonneg.mpr hx
  unfold rint
  split_ifs
  · exact hf
  · omega
  · rw [round_eq]
    exact Int.floor_nonneg.mpr (by linarith)

lemma nComp_nonneg (S : ℕ) : 0 ≤ nComp S := by
  unfold nComp
  apply Int.floor_nonneg.mpr
  apply div_nonneg _ (by norm_num)
  have hs : (1 : ℝ) ≤ Real.sqrt (1 + 8 * (S : ℝ)) := by
    have h1 : Real.sqrt 1 ≤ Real.sqrt (1 + 8 * (S : ℝ)) := by
      apply Real.sqrt_le_sqrt
      have : (0 : ℝ) ≤ (S : ℝ) := Nat.cast_nonneg S
      linarith
    rwa [Real.sqrt_one] at h1
  have := rint_nonneg (x := -1 + Real.sqrt (1 + 8 * (S : ℝ))) (by linarith)
  exact_mod_cast this

lemma nComp_triangle (N : ℕ) : nComp (N * (N + 1) / 2) = N := by
  have hnat : 1 + 8 * (N * (N + 1) / 2) = (2 * N + 1) ^ 2 := by
    obtain ⟨c, hc⟩ := Nat.even_mul_succ_self N
    have h3 : (2 * N + 1) ^ 2 = 4 * (N * (N + 1)) + 1 := by ring
    omega
  unfold nComp
  have hsq : Real.sqrt (1 + 8 * ((N * (N + 1) / 2 : ℕ) : ℝ))
      = 2 * (N : ℝ) + 1 := by
    have hc : (1 : ℝ) + 8 * ((N * (N + 1) / 2 : ℕ) : ℝ)
        = (2 * (N : ℝ) + 1) ^ 2 := by
      have hcast := congrArg (fun n : ℕ => (n : ℝ)) hnat
      push_cast at hcast
      linarith
    rw [hc, Real.sqrt_sq (by positivity)]
  rw [hsq]
  have hz : (-1 : ℝ) + (2 * (N : ℝ) + 1) = (((2 * N : ℕ) : ℤ) : ℝ) := by
    push_cast
    ring
  rw [hz, rint_intCast]
  have hdiv : ((((2 * N : ℕ) : ℤ) : ℝ)) / 2 = ((N : ℤ) : ℝ) := by
    push_cast
    ring
  rw [hdiv, Int.floor_intCast]

/-! ### Claim theorem: constructor -/

/-- C5: constructing the combiner with `S` sources passes the assertion
`(n_comp + 1) * n_comp // 2 == S` if and only if `S` is a triangular number
`N (N + 1) / 2` for some non-negative integer `N` (so e.g. `S = 4` raises). -/
theorem init_constraint (S : ℕ) :
    initOk S ↔ ∃ N : ℕ, S = N * (N + 1) / 2 := by
  constructor
  · intro h
    unfold initOk at h
    have hn : 0 ≤ nComp S := nComp_nonneg S
    refine ⟨(nComp S).toNat, ?_⟩
    have hnn : (((nComp S).toNat : ℤ)) = nComp S := Int.toNat_of_nonneg hn
    have key : (((nComp S).toNat * ((nComp S).toNat + 1) / 2 : ℕ) : ℤ)
        = (S : ℤ) := by
      have hq : (((nComp S).toNat * ((nComp S).toNat + 1) / 2 : ℕ) : ℤ)
          = (((nComp S).toNat * ((nComp S).toNat + 1) : ℕ) : ℤ) / 2 := rfl
      rw [hq]
      push_cast
      rw [hnn, mul_comm (nComp S) (nComp S + 1)] at *
      exact h
    exact_mod_cast key.symm
  · rintro ⟨N, rfl⟩
    unfold initOk
    rw [nComp_triangle]
    have key : (((N * (N + 1) / 2 : ℕ)) : ℤ) = ((N : ℤ) + 1) * (N : ℤ) / 2 := by
      have hq : (((N * (N + 1) / 2 : ℕ)) : ℤ)
          = (((N * (N + 1) : ℕ)) : ℤ) / 2 := rfl
      rw [hq]
      push_cast
      ring_nf
    exact key.symm

end Fgspectra
